import Mathlib

/-!
Verification development for the MemorizedMCP hybrid memory server
(`src/server/src/main.rs`, `src/server/src/kg.rs`, `src/server/src/vector_index.rs`,
`src/server/src/embeddings.rs`).

The Rust code is shallowly embedded: sled trees become association lists whose
list order models the tree's iteration order, JSON memory records become typed
structures with `Option` fields for JSON keys that may be absent (the code's
`unwrap_or` defaults are applied at each read site, exactly as in the source),
and `f64`/`f32` values become exact fractions (`Frac`) — every numeric constant
involved (0.99, 1.5, 0.05, 1.05, Jaccard ratios) is exactly representable, and
the claims under study only compare these quantities against thresholds, so the
exact-fraction model is faithful for them.  Rust panics (string slicing at a
non-boundary byte index) are modelled as `none` / `Except.error`.
-/

set_option maxRecDepth 1000000

namespace MemorizedMCP

/-! ## Exact fractions, modelling the source's f64/f32 values.
Invariant (maintained by every constructor used in the model): `den > 0`. -/

structure Frac where
  num : Int
  den : Int
  deriving DecidableEq, Repr

/-- Model of `a ≤ b` for fractions with positive denominators. -/
def Frac.ble (a b : Frac) : Bool := a.num * b.den ≤ b.num * a.den

def Frac.mul (a b : Frac) : Frac := ⟨a.num * b.num, a.den * b.den⟩

def Frac.add (a b : Frac) : Frac := ⟨a.num * b.den + b.num * a.den, a.den * b.den⟩

def Frac.ofInt (n : Int) : Frac := ⟨n, 1⟩

def Frac.zero : Frac := ⟨0, 1⟩

def Frac.one : Frac := ⟨1, 1⟩

deriving instance DecidableEq for Except

/-! ## String helpers (models of the Rust `str` operations; ASCII-faithful) -/

/-- Does the first list start with the second? (`str::starts_with`). -/
def listStarts : List Char → List Char → Bool
  | _, [] => true
  | [], _ :: _ => false
  | a :: as, b :: bs => a == b && listStarts as bs

def strStarts (s pre : String) : Bool := listStarts s.data pre.data

/-- Model of `str::ends_with`. -/
def strEnds (s suffix : String) : Bool := listStarts s.data.reverse suffix.data.reverse

/-- Model of `str::contains` (substring search). -/
def listHasSub : List Char → List Char → Bool
  | _, [] => true
  | [], _ :: _ => false
  | a :: as, needle => listStarts (a :: as) needle || listHasSub as needle

def strHasSub (hay needle : String) : Bool := listHasSub hay.data needle.data

/-- Model of `str::to_lowercase` (ASCII model; all inputs exercised are ASCII). -/
def lowerStr (s : String) : String := String.mk (s.data.map Char.toLower)

/-- Model of `str::trim` (ASCII-whitespace model). -/
def trimStr (s : String) : String :=
  String.mk (((s.data.dropWhile Char.isWhitespace).reverse.dropWhile Char.isWhitespace).reverse)

/-- Model of `str::split_once("->")`: split at the first occurrence of `->`. -/
def splitArrowL : List Char → Option (List Char × List Char)
  | [] => none
  | c :: rest =>
    if listStarts (c :: rest) ['-', '>'] then some ([], rest.drop 1)
    else (splitArrowL rest).map (fun p => (c :: p.1, p.2))

def splitOnceArrow (s : String) : Option (String × String) :=
  (splitArrowL s.data).map (fun p => (String.mk p.1, String.mk p.2))

/-- Model of `str::strip_prefix`. -/
def stripPre (s pre : String) : Option String :=
  if strStarts s pre then some (String.mk (s.data.drop pre.data.length)) else none

/-! ## Association-list model of sled trees.
The list order models the tree's iteration order; `alPut` models
`Tree::insert` (overwrite in place, append if absent). -/

abbrev AList (α : Type) := List (String × α)

def alGet {α : Type} (t : AList α) (k : String) : Option α :=
  (t.find? (fun p => p.1 == k)).map (fun p => p.2)

def alPut {α : Type} : AList α → String → α → AList α
  | [], k, v => [(k, v)]
  | (k', v') :: t, k, v => if k' == k then (k, v) :: t else (k', v') :: alPut t k v

/-- Model of `Tree::remove` of a single key. -/
def alRemove {α : Type} (t : AList α) (k : String) : AList α :=
  t.filter (fun p => p.1 != k)

/-- Removing every key found by `scan_prefix` (as the delete cascades do). -/
def alRemoveByPre {α : Type} (t : AList α) (pre : String) : AList α :=
  t.filter (fun p => !(strStarts p.1 pre))

def alHas {α : Type} (t : AList α) (k : String) : Bool := (alGet t k).isSome

/-! ## Memory records (`memories` tree values) and the consolidation log.
Fields mirror the JSON written by `memory_add` / mutated elsewhere; `Option`
marks JSON keys that may be absent. -/

structure DocRef where
  docId : String
  chunkId : Option String := none
  score : Option Frac := none
  deriving DecidableEq, Repr

structure MemRec where
  id : String := ""
  content : String := ""
  metadata : Option String := none
  layer : String := ""
  created_at : Option Int := none
  expires_at : Option Int := none
  importance : Option Frac := none
  access_count : Option Nat := none
  last_access_ts : Option Int := none
  promoted_at : Option Int := none
  session_id : Option String := none
  episode_id : Option String := none
  version : Option Nat := none
  docRefs : Option (List DocRef) := none
  deriving DecidableEq, Repr

/-- A `consolidation_log` value:
`{ id, from: "STM", to: "LTM", reason, ts }` (main.rs, run_maintenance). -/
structure LogVal where
  id : String
  fromLayer : String
  toLayer : String
  reason : String
  ts : Int
  deriving DecidableEq, Repr

/-- Environment knobs read by `run_maintenance`, with the code's
`unwrap_or` defaults. -/
structure MaintConfig where
  decay : Frac := ⟨99, 100⟩
  promoteThreshold : Frac := ⟨3, 2⟩
  accessThreshold : Nat := 3
  maxItems : Nat := 0
  deriving Repr

/-- Model of `importance >= promote_threshold || accessed >= access_threshold`. -/
def promotionPred (cfg : MaintConfig) (importance : Frac) (accessed : Nat) : Bool :=
  Frac.ble cfg.promoteThreshold importance || Nat.ble cfg.accessThreshold accessed

/-- Promotion inside the STM branch of `run_maintenance` (lines 1414-1423):
sets `layer`/`promoted_at` but writes no log record. -/
def stmBranchPromote (cfg : MaintConfig) (now : Int) (r : MemRec) : MemRec :=
  if promotionPred cfg (r.importance.getD Frac.one) (r.access_count.getD 0) then
    { r with layer := "LTM", promoted_at := some now }
  else r

/-- The body of the `run_maintenance` per-record loop (main.rs lines 1408-1447).
Returns `none` when the record is removed (`expires_at ≤ now` in the STM
branch, followed by `continue`); otherwise the updated record together with
the `consolidation_log` entry appended by the trailing "scheduled promotion"
block, if any. -/
def maintainOne (cfg : MaintConfig) (now : Int) (r0 : MemRec) :
    Option (MemRec × Option LogVal) :=
  let step1 : Option MemRec :=
    if r0.layer = "STM" then
      match r0.expires_at with
      | some exp => if exp ≤ now then none else some (stmBranchPromote cfg now r0)
      | none => some (stmBranchPromote cfg now r0)
    else if r0.layer = "LTM" then
      some { r0 with importance := some (Frac.mul (r0.importance.getD Frac.one) cfg.decay) }
    else some r0
  match step1 with
  | none => none
  | some r1 =>
    let imp := r1.importance.getD Frac.one
    let acc := r1.access_count.getD 0
    if promotionPred cfg imp acc then
      let reason := if Frac.ble cfg.promoteThreshold imp then "importance" else "access"
      some ({ r1 with layer := "LTM", promoted_at := some now },
            some ⟨r1.id, "STM", "LTM", reason, now⟩)
    else some (r1, none)

/-- The first loop of `run_maintenance` over the `memories` tree, threading the
`consolidation_log` tree (keys `"{now}:{id}"`). -/
def runScan (cfg : MaintConfig) (now : Int) :
    AList MemRec → AList LogVal → AList MemRec × AList LogVal
  | [], log => ([], log)
  | (k, r) :: rest, log =>
    match maintainOne cfg now r with
    | none => runScan cfg now rest log
    | some (r', entry?) =>
      let log' := match entry? with
        | some e => alPut log (toString now ++ ":" ++ e.id) e
        | none => log
      let out := runScan cfg now rest log'
      ((k, r') :: out.1, out.2)

/-- Model of `last_access_ts` falling back to `created_at` falling back to `now`. -/
def lruTs (now : Int) (r : MemRec) : Int :=
  ((r.last_access_ts).orElse (fun _ => r.created_at)).getD now

/-- Stable ascending insertion by timestamp (models the stable
`sort_by_key` in the LRU pass). -/
def insertByTs (x : String × Int) : List (String × Int) → List (String × Int)
  | [] => [x]
  | y :: ys => if y.2 ≤ x.2 then y :: insertByTs x ys else x :: y :: ys

def sortByTs : List (String × Int) → List (String × Int)
  | [] => []
  | x :: xs => insertByTs x (sortByTs xs)

/-- The keys the STM LRU-capacity pass removes: the oldest excess STM records
by `last_access_ts` (fallback `created_at`). -/
def lruRemoveKeys (cfg : MaintConfig) (now : Int) (mems : AList MemRec) : List String :=
  let stmItems := mems.filterMap (fun p =>
    if p.2.layer = "STM" then some (p.1, lruTs now p.2) else none)
  if stmItems.length > cfg.maxItems then
    ((sortByTs stmItems).take (stmItems.length - cfg.maxItems)).map Prod.fst
  else []

/-- The STM LRU-capacity pass of `run_maintenance` (lines 1449-1468). -/
def lruStage (cfg : MaintConfig) (now : Int) (mems : AList MemRec) : AList MemRec :=
  if cfg.maxItems > 0 then
    mems.filter (fun p => !((lruRemoveKeys cfg now mems).contains p.1))
  else mems

/-- Model of `run_maintenance` (main.rs lines 1404-1471): the per-record scan followed by
the STM LRU pass.  Returns the new `memories` tree and `consolidation_log`. -/
def runMaintenance (cfg : MaintConfig) (now : Int) (mems : AList MemRec)
    (log : AList LogVal) : AList MemRec × AList LogVal :=
  let scanned := runScan cfg now mems log
  (lruStage cfg now scanned.1, scanned.2)

/-! ### Claim C1 -/

/-- Counterexample input for C1: an STM memory that is expired at the tick and
satisfies the promotion predicate (importance 2 ≥ 1.5). -/
def c1Mem : MemRec :=
  { id := "m1", content := "note", layer := "STM", expires_at := some 0,
    importance := some ⟨2, 1⟩, access_count := some 5 }

/-! ### Claim C2 -/

/-- Failing input for C2: a memory already in layer LTM at the start of the
tick, with `access_count = 3`. -/
def c2Mem : MemRec :=
  { id := "m2", content := "note", layer := "LTM", importance := some Frac.one,
    access_count := some 3 }

/-! ## Fusion search (`search_fusion`, main.rs lines 1522-1648) -/

/-- Model of `a < b` for fractions with positive denominators. -/
def Frac.blt (a b : Frac) : Bool := a.num * b.den < b.num * a.den

inductive Explain where
  | text : Explain
  | textDocIndex : Explain
  | kg : Explain
  | vectorAnn (score : Frac) : Explain
  deriving DecidableEq, Repr

structure DocRefOut where
  docId : String
  chunkId : Option String
  score : Option Frac
  deriving DecidableEq, Repr

structure SearchResult where
  id : String
  score : Frac
  layer : String
  docRefs : Option (List DocRefOut) := none
  explain : Option Explain := none
  deriving DecidableEq, Repr

def docRefToOut (d : DocRef) : DocRefOut := ⟨d.docId, d.chunkId, d.score⟩

/-- The `created_at` / `from` / `to` filter of the memory scan. -/
def inTimeWindow (tfrom tto : Option Int) (created : Option Int) : Bool :=
  match created with
  | some t =>
    (match tfrom with | some f => decide (f ≤ t) | none => true) &&
    (match tto with | some u => decide (t ≤ u) | none => true)
  | none => true

/-- Source 1: scan of the `memories` tree for substring matches on the
lowercased content (emits `explain.text = 1.0`, score 0). -/
def memScanHits (mems : AList MemRec) (q : String) (tfrom tto : Option Int) :
    List SearchResult :=
  mems.filterMap (fun p =>
    if strHasSub (lowerStr p.2.content) q && inTimeWindow tfrom tto p.2.created_at then
      some { id := p.2.id, score := Frac.zero, layer := p.2.layer,
             docRefs := p.2.docRefs.map (fun l => l.map docRefToOut),
             explain := some Explain.text }
    else none)

/-- Source 2: scan of the `text_index` tree (emits `source = "doc-index"`). -/
def docIndexHits (textIdx : AList String) (q : String) : List SearchResult :=
  textIdx.filterMap (fun p =>
    if strHasSub (lowerStr p.2) q then
      some { id := p.1, score := Frac.zero, layer := "doc", docRefs := none,
             explain := some Explain.textDocIndex }
    else none)

/-- Stable insertion step for the descending sort by score.  The source uses
the stable `sort_by(|a,b| b.score.partial_cmp(&a.score))`; a stable sort's
output is unique, and this insertion sort is stable for the descending
order, so the two agree.  (`partial_cmp` never sees NaN here.) -/
def insertDescByScore (x : SearchResult) : List SearchResult → List SearchResult
  | [] => [x]
  | y :: ys => if Frac.blt y.score x.score then x :: y :: ys else y :: insertDescByScore x ys

def sortDescByScore : List SearchResult → List SearchResult
  | [] => []
  | x :: xs => insertDescByScore x (sortDescByScore xs)

/-- The `layer` looked up for KG/ANN candidates (`"STM"` when the memory
record is absent). -/
def kgLayerOf (mems : AList MemRec) (memId : String) : String :=
  match alGet mems memId with
  | some r => r.layer
  | none => "STM"

/-- The edge-key suffix the KG phase matches: `->Entity::{q}::MENTIONS`. -/
def kgNeedle (q : String) : String := "->Entity::" ++ q ++ "::MENTIONS"

/-- One `kg_edges` key processed by the KG phase: keys ending in
`->Entity::q::MENTIONS` (exactly or case-insensitively) with a `Memory::`
source contribute the memory id unless already present. -/
def kgStep (mems : AList MemRec) (q : String) (res : List SearchResult)
    (key : String) : List SearchResult :=
  if strEnds key (kgNeedle q) || strEnds (lowerStr key) (lowerStr (kgNeedle q)) then
    match splitOnceArrow key with
    | some (src, _) =>
      match stripPre src "Memory::" with
      | some memId =>
        if res.any (fun r => r.id == memId) then res
        else res ++ [{ id := memId, score := Frac.zero, layer := kgLayerOf mems memId,
                       docRefs := none, explain := some Explain.kg }]
      | none => res
    | none => res
  else res

def kgPhase (mems : AList MemRec) (edgeKeys : List String) (q : String)
    (acc : List SearchResult) : List SearchResult :=
  if q = "" then acc else edgeKeys.foldl (kgStep mems q) acc

/-- One ANN hit appended by the vector phase (result score is the literal
`0.0`; the ANN score only goes into `explain.vector`). -/
def annStep (mems : AList MemRec) (res : List SearchResult) (hit : String × Frac) :
    List SearchResult :=
  if res.any (fun r => r.id == hit.1) then res
  else res ++ [{ id := hit.1, score := Frac.zero, layer := kgLayerOf mems hit.1,
                 docRefs := none, explain := some (Explain.vectorAnn hit.2) }]

def annPhase (mems : AList MemRec) (annHits : List (String × Frac)) (q : String)
    (acc : List SearchResult) : List SearchResult :=
  if q = "" then acc else annHits.foldl (annStep mems) acc

/-- The cache-miss pipeline of `search_fusion` (lines 1558-1624): text sources,
sort, truncate to `limit`, then KG and ANN augmentation appended *after* the
truncation. -/
def fusionMissResults (mems : AList MemRec) (textIdx : AList String)
    (edgeKeys : List String) (annHits : List (String × Frac))
    (q : String) (limit : Nat) (tfrom tto : Option Int) : List SearchResult :=
  let truncated :=
    (sortDescByScore (memScanHits mems q tfrom tto ++ docIndexHits textIdx q)).take limit
  annPhase mems annHits q (kgPhase mems edgeKeys q truncated)

/-! ### Query metrics -/

structure Metrics where
  count : Nat := 0
  cacheHits : Nat := 0
  cacheMisses : Nat := 0
  lastMs : Nat := 0
  avgMs : Frac := Frac.zero
  p50Ms : Frac := Frac.zero
  p95Ms : Frac := Frac.zero
  qps1m : Frac := Frac.zero
  history : List (Int × Nat) := []
  deriving DecidableEq, Repr

def insertAscNat (x : Nat) : List Nat → List Nat
  | [] => [x]
  | y :: ys => if x ≤ y then x :: y :: ys else y :: insertAscNat x ys

def sortAscNat : List Nat → List Nat
  | [] => []
  | x :: xs => insertAscNat x (sortAscNat xs)

def Frac.divInt (a : Frac) (n : Int) : Frac := ⟨a.num, a.den * n⟩

/-- The metrics-window bookkeeping shared by both `search_fusion` branches:
push `(now, took)` into the 60-second history, prune stale entries from the
front, recompute p50/p95 over the sorted latencies (the f64 index arithmetic
`floor(len*0.5)` and `min(floor(len*0.95), len-1)` is exact at these sizes
and modelled as `len/2` and `min (len*19/20) (len-1)`), and `qps_1m`. -/
def metricsWindow (m : Metrics) (now : Int) (took : Nat) : Metrics :=
  let h := (m.history ++ [(now, took)]).dropWhile (fun p => decide (60000 < now - p.1))
  let lat := sortAscNat (h.map Prod.snd)
  let m1 :=
    if lat.isEmpty then m
    else { m with
           p50Ms := Frac.ofInt (lat.getD (lat.length / 2) 0),
           p95Ms := Frac.ofInt (lat.getD (min (lat.length * 19 / 20) (lat.length - 1)) 0) }
  { m1 with history := h, qps1m := ⟨(h.length : Int), 60⟩ }

/-- Metrics update of the cache-hit branch (lines 1539-1554). -/
def hitMetrics (m : Metrics) (now : Int) : Metrics :=
  metricsWindow { m with count := m.count + 1, cacheHits := m.cacheHits + 1, lastMs := 0 } now 0

/-- Metrics update of the cache-miss branch (lines 1632-1646); `avg_ms` uses
the already-incremented count, i.e. `(avg*(cnt-1) + took)/cnt`. -/
def missMetrics (m : Metrics) (now : Int) (took : Nat) : Metrics :=
  let cnt := m.count + 1
  let avg := Frac.divInt
    (Frac.add (Frac.mul m.avgMs (Frac.ofInt (Int.ofNat (cnt - 1)))) (Frac.ofInt (Int.ofNat took)))
    (Int.ofNat cnt)
  metricsWindow
    { m with count := cnt, cacheMisses := m.cacheMisses + 1, lastMs := took, avgMs := avg }
    now took

/-! ### The `search_fusion` handler -/

/-- The cache key: built from the lowercased query and the limit only
(`format!("q={}::limit={}", q, limit)`, line 1528). -/
def fusionCacheKey (q : String) (limit : Nat) : String :=
  "q=" ++ q ++ "::limit=" ++ toString limit

structure FusionResponse where
  results : List SearchResult
  tookMs : Option Nat
  deriving DecidableEq, Repr

abbrev FusionCache := AList (Int × List SearchResult)

/-- Everything `search_fusion` reads besides the cache and metrics: the trees
it scans, the TTL knob (`FUSION_CACHE_TTL_MS`, default 3000), and the output
of `vector_index::ann_search_memories` for the embedded query.  The embedding
provider is the all-zero placeholder, and the handler discards the ANN score
into `explain` only, so the theorems below hold for *every* value of
`annHits`; it is therefore kept abstract and universally quantified. -/
structure FusionEnv where
  ttl : Int := 3000
  mems : AList MemRec := []
  textIdx : AList String := []
  edgeKeys : List String := []
  annHits : List (String × Frac) := []

structure FusionOut where
  resp : FusionResponse
  cache : FusionCache
  metrics : Metrics
  deriving DecidableEq, Repr

/-- Model of `search_fusion` (lines 1522-1648).  `rawQ`/`rawLimit`/`tfrom`/`tto` are the
query parameters (`limit` parse failure modelled as `none`); `now` is the
wall-clock at entry and `took` the elapsed time of the miss pipeline. -/
def searchFusion (env : FusionEnv) (cache : FusionCache) (m : Metrics)
    (rawQ : Option String) (rawLimit : Option Nat) (tfrom tto : Option Int)
    (now : Int) (took : Nat) : FusionOut :=
  let q := lowerStr (rawQ.getD "")
  let limit := rawLimit.getD 10
  let key := fusionCacheKey q limit
  let doMiss : FusionOut :=
    let results := fusionMissResults env.mems env.textIdx env.edgeKeys env.annHits q limit tfrom tto
    { resp := { results := results, tookMs := some took },
      cache := alPut cache key (now, results),
      metrics := missMetrics m now took }
  match alGet cache key with
  | some entry =>
    if now - entry.1 ≤ env.ttl then
      { resp := { results := entry.2.take limit, tookMs := some 0 },
        cache := cache,
        metrics := hitMetrics m now }
    else doMiss
  | none => doMiss

/-! ### Claim C3 -/

def c3Mem : MemRec :=
  { id := "m0", content := "apple pie", layer := "STM", created_at := some 5 }

def c3Env : FusionEnv :=
  { mems := [("m0", c3Mem)], edgeKeys := ["Memory::m9->Entity::apple::MENTIONS"] }

/-! ## UTF-8 byte geometry.
Rust strings are byte-indexed; `chunk_markdown` and the chunk indexers slice
at raw byte offsets.  Texts are modelled as Lean strings; byte offsets via the
UTF-8 size of each character. -/

def charBytes (c : Char) : Nat :=
  if c.toNat < 0x80 then 1
  else if c.toNat < 0x800 then 2
  else if c.toNat < 0x10000 then 3
  else 4

/-- Model of `str::len` (byte length). -/
def byteLen (s : String) : Nat := (s.data.map charBytes).sum

/-- Drop exactly `n` bytes; `none` models the Rust slicing panic when `n` is
not at a character boundary (or past the end). -/
def dropBytes : List Char → Nat → Option (List Char)
  | cs, 0 => some cs
  | [], _ + 1 => none
  | c :: cs, n + 1 =>
    if charBytes c ≤ n + 1 then dropBytes cs (n + 1 - charBytes c) else none

/-- Take exactly `n` bytes; `none` models the Rust slicing panic. -/
def takeBytes : List Char → Nat → Option (List Char)
  | _, 0 => some []
  | [], _ + 1 => none
  | c :: cs, n + 1 =>
    if charBytes c ≤ n + 1 then (takeBytes cs (n + 1 - charBytes c)).map (c :: ·) else none

/-- Rust `&s[a..b]`: `none` models the slice panic (reversed range, out of
bounds, or an index that is not a character boundary). -/
def byteSlice (s : String) (a b : Nat) : Option String :=
  if a ≤ b then (dropBytes s.data a).bind (fun t => (takeBytes t (b - a)).map String.mk)
  else none

/-! ## Chunking (`chunk_markdown`, main.rs lines 741-752) -/

structure Position where
  start : Nat
  /-- `end` in the source JSON; renamed because `end` is a Lean keyword. -/
  stop : Nat
  deriving DecidableEq, Repr

structure ChunkHeader where
  id : String
  position : Position
  deriving DecidableEq, Repr

/-- The `while start < content.len()` loop with `max_len = 1000`.  Fuel-based
recursion: each iteration advances `start` by at least one byte, so `len`
units of fuel always suffice. -/
def chunkLoop (len : Nat) : Nat → Nat → List Position
  | 0, _ => []
  | fuel + 1, start =>
    if start < len then
      (⟨start, min (start + 1000) len⟩ : Position) :: chunkLoop len fuel (min (start + 1000) len)
    else []

/-- Model of `chunk_markdown`: fixed 1000-byte windows over the byte length of the
content; `chunkIds` stands for the per-chunk `Uuid::new_v4` draws. -/
def chunkMarkdown (content : String) (chunkIds : Nat → String) : List ChunkHeader :=
  ((chunkLoop (byteLen content) (byteLen content) 0).enum).map (fun p => ⟨chunkIds p.1, p.2⟩)

/-- The chunk text slices `&full_text[start..min(end, len)]` computed (twice)
by `index_chunks_tantivy` and `index_chunks_sled`; `none` models the Rust
panic when a window boundary falls inside a multi-byte character. -/
def sliceChunks (chunks : List ChunkHeader) (full : String) : Option (List (Nat × String)) :=
  chunks.mapM (fun ch =>
    (byteSlice full ch.position.start (min ch.position.stop (byteLen full))).map
      (fun t => (ch.position.start, t)))

/-- Model of `index_chunks_sled` (main.rs lines 1726-1736): writes each chunk's text
slice under `"{docId}:{start}"`; `none` models the slicing panic. -/
def indexChunksSled (textIdx : AList String) (docId : String)
    (chunks : List ChunkHeader) (full : String) : Option (AList String) :=
  (sliceChunks chunks full).map
    (fun slices => slices.foldl (fun t p => alPut t (docId ++ ":" ++ toString p.1) p.2) textIdx)

/-! ## Embeddings (`embeddings.rs`) -/

def EMBED_DIM : Nat := 384

def zeroVec : List Frac := List.replicate EMBED_DIM Frac.zero

/-- Model of `embed_batch`: the placeholder provider returns one all-zero
`EMBED_DIM`-dimensional vector per input text (both cfg branches do). -/
def embedBatch (texts : List String) : List (List Frac) :=
  texts.map (fun _ => zeroVec)

/-! ## Entity extraction (`kg::extract_entities`).
The regex `\b[A-Z][a-zA-Z]{2,}\b` matches exactly the maximal runs of word
characters that consist solely of ASCII letters, start with an uppercase
letter and have length ≥ 3 (the `\b` anchors force maximality).  Word
characters are modelled as ASCII `[A-Za-z0-9_]`. -/

def isAsciiUpper (c : Char) : Bool := 'A' ≤ c && c ≤ 'Z'

def isAsciiAlpha (c : Char) : Bool := ('a' ≤ c && c ≤ 'z') || isAsciiUpper c

def isWordChar (c : Char) : Bool := isAsciiAlpha c || ('0' ≤ c && c ≤ '9') || c == '_'

/-- Maximal word-character runs of a text (fuel-based; `length` fuel always
suffices since each step consumes at least one character). -/
def wordRunsF : Nat → List Char → List (List Char)
  | 0, _ => []
  | _ + 1, [] => []
  | fuel + 1, c :: cs =>
    if isWordChar c then
      (c :: cs.takeWhile isWordChar) :: wordRunsF fuel (cs.dropWhile isWordChar)
    else wordRunsF fuel cs

def isEntityTok (run : List Char) : Bool :=
  match run with
  | [] => false
  | c :: _ => isAsciiUpper c && run.length ≥ 3 && run.all isAsciiAlpha

def strLeChars : List Char → List Char → Bool
  | [], _ => true
  | _ :: _, [] => false
  | a :: as, b :: bs => if a = b then strLeChars as bs else decide (a < b)

def insertStrAsc (x : String) : List String → List String
  | [] => [x]
  | y :: ys => if strLeChars x.data y.data then x :: y :: ys else y :: insertStrAsc x ys

/-- Model of `Vec::sort` (value sort; duplicates indistinguishable). -/
def sortStrsAsc : List String → List String
  | [] => []
  | x :: xs => insertStrAsc x (sortStrsAsc xs)

/-- Model of `Vec::dedup`: remove consecutive duplicates. -/
def dedupAdj : List String → List String
  | [] => []
  | [x] => [x]
  | x :: y :: rest => if x = y then dedupAdj (y :: rest) else x :: dedupAdj (y :: rest)

/-- Model of `kg::extract_entities`: matches, sorted lexicographically, deduped. -/
def extractEntities (text : String) : List String :=
  dedupAdj (sortStrsAsc (((wordRunsF text.data.length text.data).filter isEntityTok).map
    String.mk))

/-! ## The server's persistent state and the KG operations -/

structure DocInfo where
  path : String
  hash : String
  version : Nat
  prev_id : Option String
  created_at : Int
  deriving DecidableEq, Repr

inductive NodeType
  | entity | document | memory | episode
  deriving DecidableEq, Repr

structure KgNode where
  type : NodeType
  label : Option String := none
  idField : Option String := none
  name : Option String := none
  sessionId : Option String := none
  created_at : Int
  tags : List String := []
  deriving DecidableEq, Repr

structure KgEdge where
  src : String
  dst : String
  relation : String
  score : Option Frac := none
  created_at : Int
  deriving DecidableEq, Repr

structure RefVal where
  score : Frac
  deriving DecidableEq, Repr

/-- The sled trees touched by the operations under study (the `AppState`
database).  `kgLinks` values are empty byte strings. -/
structure ServerState where
  docs : AList String := []
  docsInfo : AList DocInfo := []
  docsMeta : AList String := []
  pathLatest : AList String := []
  docVersions : AList String := []
  chunks : AList ChunkHeader := []
  embeddings : AList (List Frac) := []
  textIndex : AList String := []
  memories : AList MemRec := []
  memEmbeddings : AList (List Frac) := []
  docRefs : AList RefVal := []
  kgNodes : AList KgNode := []
  kgEdges : AList KgEdge := []
  kgEntities : AList Nat := []
  kgLinks : AList Unit := []
  vecMetaItems : Nat := 0
  vecMetaDim : Nat := 0
  vecMetaDocs : AList Nat := []
  backupsMemories : AList MemRec := []
  deriving DecidableEq, Repr

/-- Idempotent node insertion (`kg::ensure_*_node`). -/
def ensureNode (s : ServerState) (key : String) (node : KgNode) : ServerState :=
  if (alGet s.kgNodes key).isSome then s
  else { s with kgNodes := alPut s.kgNodes key node }

def ensureEntityNode (s : ServerState) (name : String) (now : Int) : ServerState :=
  ensureNode s ("Entity::" ++ name) { type := .entity, label := some name, created_at := now }

def ensureDocumentNode (s : ServerState) (docId : String) (now : Int) : ServerState :=
  ensureNode s ("Document::" ++ docId)
    { type := .document, idField := some docId, created_at := now }

def ensureMemoryNode (s : ServerState) (memId : String) (now : Int) : ServerState :=
  ensureNode s ("Memory::" ++ memId)
    { type := .memory, idField := some memId, created_at := now }

def ensureEpisodeNode (s : ServerState) (epId : String) (now : Int)
    (name : Option String) (sessionId : Option String) : ServerState :=
  ensureNode s ("Episode::" ++ epId)
    { type := .episode, idField := some epId, name := name, sessionId := sessionId,
      created_at := now }

/-- Model of `kg::add_edge` / `kg::add_edge_generic` (identical bodies): key
`"{src}->{dst}::{relation}"`.  Note `document_store`'s `MENTIONS` edges pass
the *raw* entity name and doc id as endpoints. -/
def addEdge (s : ServerState) (src dst relation : String) (now : Int) : ServerState :=
  let e : KgEdge := ⟨src, dst, relation, none, now⟩
  { s with kgEdges := alPut s.kgEdges (src ++ "->" ++ dst ++ "::" ++ relation) e }

/-- Model of `kg::link_entities`: bump each entity's mention counter and write a
`"{docId}::{entity}"` link key. -/
def linkEntities (s : ServerState) (docId : String) (ents : List String) : ServerState :=
  ents.foldl (fun st e =>
    { st with kgEntities := alPut st.kgEntities e ((alGet st.kgEntities e).getD 0 + 1),
              kgLinks := alPut st.kgLinks (docId ++ "::" ++ e) () }) s

/-- Model of `str::split_once("::")`. -/
def splitDblColonL : List Char → Option (List Char × List Char)
  | [] => none
  | c :: rest =>
    if listStarts (c :: rest) [':', ':'] then some ([], rest.drop 1)
    else (splitDblColonL rest).map (fun p => (c :: p.1, p.2))

/-- Model of `kg::entities_for_doc`: scan `kg_links` keys with the doc's `"{id}::"`
prefix and keep the part after the first `::`. -/
def entitiesForDoc (s : ServerState) (docId : String) : List String :=
  (s.kgLinks.map Prod.fst).filterMap (fun k =>
    if strStarts k (docId ++ "::") then (splitDblColonL k.data).map (fun p => String.mk p.2)
    else none)

/-- HashSet deduplication, keeping first occurrences (fuel-based). -/
def dedupKeepFirstF : Nat → List String → List String
  | 0, _ => []
  | _ + 1, [] => []
  | fuel + 1, x :: xs => x :: dedupKeepFirstF fuel (xs.filter (fun y => y != x))

def distinctL (l : List String) : List String := dedupKeepFirstF l.length l

/-- Model of `HashSet::intersection(..).count()`. -/
def interCount (a b : List String) : Nat :=
  ((distinctL a).filter (fun x => b.contains x)).length

/-- Model of `HashSet::union(..).count()`. -/
def unionCount (a b : List String) : Nat := (distinctL (a ++ b)).length

/-- Model of `kg::relate_documents_by_entities`: Jaccard of the two entity sets; a
`RELATED` edge `Document::a -> Document::b` when positive. -/
def relateDocumentsByEntities (s : ServerState) (a b : String) (now : Int) : ServerState :=
  let aE := entitiesForDoc s a
  let bE := entitiesForDoc s b
  if aE.isEmpty || bE.isEmpty then s
  else
    let uni := unionCount aE bE
    if uni = 0 then s
    else
      let jacc : Frac := ⟨interCount aE bE, uni⟩
      let e : KgEdge := ⟨"Document::" ++ a, "Document::" ++ b, "RELATED", some jacc, now⟩
      if Frac.blt Frac.zero jacc then
        { s with kgEdges :=
            alPut s.kgEdges ("Document::" ++ a ++ "->" ++ "Document::" ++ b ++ "::RELATED") e }
      else s

/-- Model of `vector_index::record_vectors`: bump the `items` counter, set `dim`, and
record the per-document vector count. -/
def recordVectors (s : ServerState) (docId : String) (chunkStarts : List Nat) (dim : Nat) :
    ServerState :=
  { s with vecMetaItems := s.vecMetaItems + chunkStarts.length,
           vecMetaDim := dim,
           vecMetaDocs := alPut s.vecMetaDocs ("doc::" ++ docId) chunkStarts.length }

/-! ## `document_store` (main.rs lines 603-712, inline-content path) -/

structure ErrObj where
  status : Nat
  code : String
  deriving DecidableEq, Repr

structure StoreDocResponse where
  id : String
  hash : String
  chunks : Nat
  deriving DecidableEq, Repr

/-- Model of `docs_info[doc_path_latest[p]].version` with default 0. -/
def prevVersionOf (s : ServerState) (p : String) : Nat :=
  (((alGet s.pathLatest p).bind (fun pid => alGet s.docsInfo pid)).map DocInfo.version).getD 0

/-- The version chosen by the dedup branch: `prev_version` when the path
already points at this id, else `prev_version + 1`. -/
def dedupVersion (s : ServerState) (id : String) (p : String) : Nat :=
  if alGet s.pathLatest p = some id then prevVersionOf s p else prevVersionOf s p + 1

/-- Dedup-branch version bookkeeping (main.rs lines 636-651): upsert
`docs_info` if absent, repoint `doc_path_latest`, record `doc_versions`. -/
def dedupPathUpdate (s : ServerState) (id h p : String) (now : Int) : ServerState :=
  let ver := dedupVersion s id p
  let s1 := if (alGet s.docsInfo id).isNone then
      { s with docsInfo := alPut s.docsInfo id ⟨p, h, ver, alGet s.pathLatest p, now⟩ }
    else s
  let s2 := { s1 with pathLatest := alPut s1.pathLatest p id }
  { s2 with docVersions := alPut s2.docVersions (p ++ ":" ++ toString ver) id }

/-- First-ingest version bookkeeping (main.rs lines 664-676). -/
def missPathUpdate (s : ServerState) (id h p : String) (now : Int) : ServerState :=
  let ver := prevVersionOf s p + 1
  let s1 := { s with docsInfo := alPut s.docsInfo id ⟨p, h, ver, alGet s.pathLatest p, now⟩ }
  let s2 := { s1 with pathLatest := alPut s1.pathLatest p id }
  { s2 with docVersions := alPut s2.docVersions (p ++ ":" ++ toString ver) id }

/-- The texts `document_store` passes to the embedding provider: one empty
placeholder per chunk (`chunks.iter().map(|_| "")`, main.rs line 686). -/
def docStoreEmbedInputs (content : String) (chunkIds : Nat → String) : List String :=
  (chunkMarkdown content chunkIds).map (fun _ => "")

/-- The first-ingest pipeline of `document_store` after the `docs` insert:
metadata, versioning, chunking, embedding, vec_meta, entity/KG linking,
cross-document relation, then chunk text indexing (the tantivy and sled
indexers both slice the chunks; `Except.error` models their slicing panic). -/
def docIngest (s1 : ServerState) (id hh content : String) (path : Option String)
    (metadata : Option String) (chunkIds : Nat → String) (now : Int) :
    Except String (StoreDocResponse × ServerState) :=
  let s2 := match metadata with
    | some meta => { s1 with docsMeta := alPut s1.docsMeta (id ++ ":meta") meta }
    | none => s1
  let s3 := match path with
    | some p => missPathUpdate s2 id hh p now
    | none => s2
  let chs := chunkMarkdown content chunkIds
  let chunkWrite := fun (t : AList ChunkHeader) (ch : ChunkHeader) =>
    alPut t (id ++ ":" ++ toString ch.position.start) ch
  let s4 := { s3 with chunks := chs.foldl chunkWrite s3.chunks }
  let vecs := embedBatch (docStoreEmbedInputs content chunkIds)
  let embWrite := fun (t : AList (List Frac)) (p : ChunkHeader × List Frac) =>
    alPut t (id ++ ":" ++ toString p.1.position.start) p.2
  let s5 := { s4 with embeddings := (chs.zip vecs).foldl embWrite s4.embeddings }
  let s6 := recordVectors s5 id (chs.map (fun c => c.position.start)) EMBED_DIM
  let ents := extractEntities content
  let s7 := linkEntities s6 id ents
  let s8 := ensureDocumentNode s7 id now
  let s9 := ents.foldl (fun st e => addEdge (ensureEntityNode st e now) e id "MENTIONS" now) s8
  let s10 := (s9.pathLatest.map Prod.snd).foldl (fun st otherId =>
      if otherId ≠ id then relateDocumentsByEntities st id otherId now else st) s9
  match indexChunksSled s10.textIndex id chs content with
  | none => .error "panic: byte index is not a char boundary"
  | some tIdx => .ok (⟨id, hh, chs.length⟩, { s10 with textIndex := tIdx })

/-- Model of `document_store` for inline content.  `hashFn` stands for hex-lowered
SHA-256 over the UTF-8 bytes (opaque: the claims only use that equal content
hashes equally), `freshId` for the `Uuid::new_v4` draw. -/
def documentStore (s : ServerState) (hashFn : String → String) (content : String)
    (path : Option String) (metadata : Option String)
    (freshId : String) (chunkIds : Nat → String) (now : Int) :
    Except String (StoreDocResponse × ServerState) :=
  let h := hashFn content
  match alGet s.docs h with
  | some existingId =>
    let s' := match path with
      | some p => dedupPathUpdate s existingId h p now
      | none => s
    .ok (⟨existingId, h, 0⟩, s')
  | none =>
    docIngest { s with docs := alPut s.docs h freshId } freshId h content path metadata
      chunkIds now

/-! ## `memory_add` (main.rs lines 1191-1265) -/

structure RefInput where
  docId : String
  chunkId : Option String := none
  score : Option Frac := none
  deriving DecidableEq, Repr

structure AddMemoryResponse where
  id : String
  layer : String
  deriving DecidableEq, Repr

/-- One reference processed by `memory_add`: ensure the document node, add an
`EVIDENCE` edge, default the score to the Jaccard of the memory's and the
document's entity sets, persist `doc_refs`, and emit the docRefs entry. -/
def memAddRefStep (freshId : String) (ents : List String) (now : Int)
    (acc : ServerState × List DocRef) (r : RefInput) : ServerState × List DocRef :=
  let stA := ensureDocumentNode acc.1 r.docId now
  let stB := addEdge stA ("Memory::" ++ freshId) ("Document::" ++ r.docId) "EVIDENCE" now
  let docEnts := entitiesForDoc stB r.docId
  let uni := unionCount ents docEnts
  let jacc : Frac := if 0 < uni then ⟨interCount ents docEnts, uni⟩ else Frac.zero
  let score := r.score.getD jacc
  let refKey := "mem::" ++ freshId ++ "::doc::" ++ r.docId ++ "::chunk::" ++ r.chunkId.getD ""
  let stC := { stB with docRefs := alPut stB.docRefs refKey ⟨score⟩ }
  (stC, acc.2 ++ [⟨r.docId, r.chunkId, some score⟩])

/-- Model of `memory_add`.  Validation of non-empty (trimmed) content happens before
any write; on success the handler writes the KG node/edges, the optional
episode link, the references, the memory record, the `mem:{id}` text index
entry and the (placeholder) memory embedding. -/
def memoryAdd (s : ServerState) (content : String) (metadata : Option String)
    (layerHint sessionId episodeId : Option String)
    (references : Option (List RefInput)) (freshId : String) (now : Int) :
    Except ErrObj AddMemoryResponse × ServerState :=
  let layer := layerHint.getD "STM"
  if (trimStr content).isEmpty then (.error ⟨400, "INVALID_INPUT"⟩, s)
  else
    let expiresAt := if layer = "STM" then some (now + 60 * 60 * 1000) else none
    let s1 := ensureMemoryNode s freshId now
    let ents := extractEntities content
    let s2 := ents.foldl (fun st e => ensureEntityNode st e now) s1
    let s3 := ents.foldl (fun st e =>
        addEdge st ("Memory::" ++ freshId) ("Entity::" ++ e) "MENTIONS" now) s2
    let s4 := match episodeId with
      | some ep =>
        addEdge (ensureEpisodeNode s3 ep now none sessionId) ("Memory::" ++ freshId)
          ("Episode::" ++ ep) "IN_EPISODE" now
      | none => s3
    let withRefs : ServerState × Option (List DocRef) := match references with
      | some refs =>
        let out := refs.foldl (memAddRefStep freshId ents now) (s4, [])
        (out.1, some out.2)
      | none => (s4, none)
    let rec0 : MemRec :=
      { id := freshId, content := content, metadata := metadata, layer := layer,
        created_at := some now, expires_at := expiresAt, session_id := sessionId,
        episode_id := episodeId, docRefs := withRefs.2 }
    let s5 := withRefs.1
    let s6 := { s5 with memories := alPut s5.memories freshId rec0 }
    let s7 := { s6 with textIndex := alPut s6.textIndex ("mem:" ++ freshId) content }
    let s8 := { s7 with memEmbeddings := alPut s7.memEmbeddings freshId zeroVec }
    (.ok ⟨freshId, layer⟩, s8)

/-! ## `memory_delete` (main.rs lines 1365-1393) -/

structure DeleteMemoryResponse where
  deleted : Bool
  cascaded : Bool
  deriving DecidableEq, Repr

/-- The cascade part of `memory_delete`: optional backup snapshot, then
removal of KG edges with prefix `Memory::{id}->`, the `mem:{id}` text index
entry, the memory embedding, and all `doc_refs` with prefix `mem::{id}::`. -/
def memoryDeletePre (s : ServerState) (id : String) (backup : Option Bool) (now : Int) :
    ServerState :=
  let s0 := if backup.getD false then
      match alGet s.memories id with
      | some v =>
        { s with backupsMemories := alPut s.backupsMemories (toString now ++ ":" ++ id) v }
      | none => s
    else s
  let s1 := { s0 with kgEdges := alRemoveByPre s0.kgEdges ("Memory::" ++ id ++ "->") }
  let s2 := { s1 with textIndex := alRemove s1.textIndex ("mem:" ++ id) }
  let s3 := { s2 with memEmbeddings := alRemove s2.memEmbeddings id }
  { s3 with docRefs := alRemoveByPre s3.docRefs ("mem::" ++ id ++ "::") }

/-- Model of `memory_delete`: the cascade, then removal of the record itself;
`NOT_FOUND` when the record did not exist. -/
def memoryDelete (s : ServerState) (id : String) (backup : Option Bool) (now : Int) :
    Except ErrObj DeleteMemoryResponse × ServerState :=
  let s4 := memoryDeletePre s id backup now
  let existed := alHas s4.memories id
  let s5 := { s4 with memories := alRemove s4.memories id }
  if existed then (.ok ⟨true, true⟩, s5) else (.error ⟨404, "NOT_FOUND"⟩, s5)

def c6wState : ServerState :=
  { memories := [("m", { id := "m", content := "x", layer := "STM" })],
    memEmbeddings := [("m", [Frac.zero])],
    textIndex := [("mem:m", "x"), ("d:0", "other")],
    docRefs := [("mem::m::doc::d::chunk::c", ⟨Frac.zero⟩)],
    kgEdges := [("Memory::m->Entity::Xyz::MENTIONS",
      ⟨"Memory::m", "Entity::Xyz", "MENTIONS", none, 0⟩)] }

def c5wFirst : Except String (StoreDocResponse × ServerState) :=
  documentStore {} (fun _ => "H") "hello world" none none "doc1" (fun _ => "cid") 5

def c5wState : ServerState :=
  match c5wFirst with
  | .ok q => q.2
  | .error _ => {}

def c5wResp : StoreDocResponse :=
  match c5wFirst with
  | .ok q => q.1
  | .error _ => ⟨"", "", 0⟩

/-! ### Claim C7 -/

/-- The chunk text slices of the extracted content — the reading of spec step
7 ("call `embed([chunk text slices])`"), stated for refutation. -/
def chunkTextSlices (content : String) (cids : Nat → String) : Option (List String) :=
  (sliceChunks (chunkMarkdown content cids) content).map (fun l => l.map Prod.snd)

def c7wFirst : Except String (StoreDocResponse × ServerState) :=
  documentStore {} (fun _ => "K") "hi" none none "d1" (fun _ => "c") 3

def c7wState : ServerState :=
  match c7wFirst with
  | .ok q => q.2
  | .error _ => {}

def c7wResp : StoreDocResponse :=
  match c7wFirst with
  | .ok q => q.1
  | .error _ => ⟨"", "", 0⟩

/-! ### Claim C9 -/

/-- A content whose 1000-byte window boundary falls inside the two-byte
character `é`: 999 ASCII bytes followed by `é` (bytes 999-1000). -/
def c9Data : List Char := List.replicate 999 'a' ++ ['é']

def c9Content : String := String.mk c9Data

/-! ### Facts about `runScan` and `lruStage` used by the claims -/

theorem runScan_key_mem (cfg : MaintConfig) (now : Int) :
    ∀ (mems : AList MemRec) (log : AList LogVal) (x : String × MemRec),
      x ∈ (runScan cfg now mems log).1 → x.1 ∈ mems.map Prod.fst := by
  intro mems
  induction mems with
  | nil => intro log x hx; simp [runScan] at hx
  | cons p rest ih =>
    intro log x hx
    obtain ⟨k, r⟩ := p
    simp only [runScan] at hx
    cases hmo : maintainOne cfg now r with
    | none =>
      rw [hmo] at hx
      simpa using Or.inr (ih log x hx)
    | some pr =>
      rw [hmo] at hx
      simp only [List.mem_cons] at hx
      rcases hx with hx | hx
      · simp [hx]
      · simpa using Or.inr (ih _ x hx)

theorem lruStage_sub (cfg : MaintConfig) (now : Int) (mems : AList MemRec)
    (x : String × MemRec) (hx : x ∈ lruStage cfg now mems) : x ∈ mems := by
  unfold lruStage at hx
  split at hx
  · exact List.mem_of_mem_filter hx
  · exact hx

/-- An expired STM record is dropped by the loop body before the promotion
check is reached (`remove` + `continue`). -/
theorem maintainOne_expired (cfg : MaintConfig) (now e : Int) (r : MemRec)
    (hstm : r.layer = "STM") (hexp : r.expires_at = some e) (hle : e ≤ now) :
    maintainOne cfg now r = none := by
  unfold maintainOne
  simp [hstm, hexp, hle]

theorem runScan_drops_expired (cfg : MaintConfig) (now : Int) :
    ∀ (mems : AList MemRec) (log : AList LogVal) (k : String) (r : MemRec),
      (k, r) ∈ mems → (mems.map Prod.fst).Nodup →
      maintainOne cfg now r = none →
      ∀ x ∈ (runScan cfg now mems log).1, x.1 ≠ k := by
  intro mems
  induction mems with
  | nil => intro log k r hmem; simp at hmem
  | cons p rest ih =>
    intro log k r hmem hnd hnone x hx
    obtain ⟨k', r'⟩ := p
    simp only [List.map_cons, List.nodup_cons] at hnd
    rcases List.mem_cons.mp hmem with heq | htail
    · -- the expired record is the head: it is dropped, and no tail key equals k
      have hk : k = k' := congrArg Prod.fst heq
      have hr : r = r' := congrArg Prod.snd heq
      subst hk
      have hnone' : maintainOne cfg now r' = none := by rw [← hr]; exact hnone
      simp only [runScan, hnone'] at hx
      intro hbad
      exact hnd.1 (hbad ▸ runScan_key_mem cfg now rest log x hx)
    · -- the expired record is in the tail
      have hkmem : k ∈ rest.map Prod.fst := List.mem_map.mpr ⟨(k, r), htail, rfl⟩
      simp only [runScan] at hx
      cases hmo : maintainOne cfg now r' with
      | none =>
        rw [hmo] at hx
        exact ih log k r htail hnd.2 hnone x hx
      | some pr =>
        rw [hmo] at hx
        rcases List.mem_cons.mp hx with hxh | hxt
        · intro hbad
          rw [hxh] at hbad
          have hk'k : k' = k := by simpa using hbad
          exact hnd.1 (hk'k ▸ hkmem)
        · exact ih _ k r htail hnd.2 hnone x hxt

/-- C1, counterexample.  The claim says an expired STM memory that satisfies
the promotion predicate is promoted to LTM instead of being removed; on the
code, `run_maintenance` removes it (the expiry branch `remove`s and
`continue`s before the promotion check), so the memory is gone and no
promotion or log record occurs. -/
theorem c1_counterexample :
    c1Mem.layer = "STM" ∧ c1Mem.expires_at = some 0 ∧ ((0 : Int) ≤ 100) ∧
    promotionPred {} (c1Mem.importance.getD Frac.one) (c1Mem.access_count.getD 0) = true ∧
    (runMaintenance {} 100 [("m1", c1Mem)] []).1 = [] ∧
    (runMaintenance {} 100 [("m1", c1Mem)] []).2 = [] := by
  refine ⟨rfl, rfl, by decide, by decide, by decide, by decide⟩

/-- C1, amended: at a maintenance tick, `run_maintenance` removes every STM
memory whose `expires_at` is ≤ now, regardless of the promotion predicate; the
predicate is only consulted for non-expired records.  (Promotion can only
save a memory at an earlier tick, before it expires.) -/
theorem c1_amended (cfg : MaintConfig) (now e : Int) (mems : AList MemRec)
    (log : AList LogVal) (k : String) (r : MemRec)
    (hmem : (k, r) ∈ mems) (hnd : (mems.map Prod.fst).Nodup)
    (hstm : r.layer = "STM") (hexp : r.expires_at = some e) (hle : e ≤ now) :
    (runMaintenance cfg now mems log).1.all (fun p => p.1 != k) = true := by
  rw [List.all_eq_true]
  intro x hx
  have hx' : x ∈ (runScan cfg now mems log).1 := lruStage_sub cfg now _ x hx
  have := runScan_drops_expired cfg now mems log k r hmem hnd
    (maintainOne_expired cfg now e r hstm hexp hle) x hx'
  simpa using this

/-- Witness for `c1_amended` at a concrete input. -/
theorem c1_amended_witness :
    (runMaintenance {} 100 [("m1", c1Mem)] []).1.all (fun p => p.1 != "m1") = true :=
  c1_amended {} 100 0 [("m1", c1Mem)] [] "m1" c1Mem (by decide) (by decide)
    (by decide) (by decide) (by decide)

/-- C2, code divergence.  The trailing "scheduled promotion" block of
`run_maintenance` runs for every surviving record, so a memory that was
already LTM at the start of the tick (and meets the access threshold) gets a
`consolidation_log` record appended — the claim (and the spec) requires that
no record is appended for such a memory.  The log entry even records
`from: "STM"` for a memory that was never STM this tick. -/
theorem c2_code_divergence :
    c2Mem.layer = "LTM" ∧
    ((runMaintenance {} 100 [("m2", c2Mem)] []).2.map Prod.snd) =
      [⟨"m2", "STM", "LTM", "access", 100⟩] := by
  exact ⟨rfl, by decide⟩

/-! ### Generic fold/list lemmas for the fusion phases -/

theorem foldl_preserve {α β : Type} (P : β → Prop) (f : List β → α → List β)
    (hf : ∀ acc a r, r ∈ f acc a → r ∈ acc ∨ P r) :
    ∀ (l : List α) (acc : List β), (∀ r ∈ acc, P r) → ∀ r ∈ l.foldl f acc, P r := by
  intro l
  induction l with
  | nil => intro acc hacc r hr; exact hacc r hr
  | cons a as ih =>
    intro acc hacc r hr
    refine ih (f acc a) ?_ r hr
    intro r' hr'
    rcases hf acc a r' hr' with h | h
    · exact hacc r' h
    · exact h

theorem foldl_length_le {α β : Type} (f : List β → α → List β)
    (hf : ∀ acc a, (f acc a).length ≤ acc.length + 1) :
    ∀ (l : List α) (acc : List β), (l.foldl f acc).length ≤ acc.length + l.length := by
  intro l
  induction l with
  | nil => intro acc; simp
  | cons a as ih =>
    intro acc
    have h1 := ih (f acc a)
    have h2 := hf acc a
    simp only [List.foldl_cons, List.length_cons]
    omega

theorem foldl_extends {α β : Type} (f : List β → α → List β)
    (hf : ∀ acc a, ∃ t, f acc a = acc ++ t) :
    ∀ (l : List α) (acc : List β), ∃ t, l.foldl f acc = acc ++ t := by
  intro l
  induction l with
  | nil => intro acc; exact ⟨[], by simp⟩
  | cons a as ih =>
    intro acc
    obtain ⟨t1, ht1⟩ := hf acc a
    obtain ⟨t2, ht2⟩ := ih (f acc a)
    exact ⟨t1 ++ t2, by rw [List.foldl_cons, ht2, ht1, List.append_assoc]⟩

theorem mem_insertDescByScore (x r : SearchResult) :
    ∀ l : List SearchResult, r ∈ insertDescByScore x l → r = x ∨ r ∈ l := by
  intro l
  induction l with
  | nil => intro h; simpa [insertDescByScore] using h
  | cons y ys ih =>
    intro h
    simp only [insertDescByScore] at h
    split at h
    · rcases List.mem_cons.mp h with h | h
      · exact Or.inl h
      · exact Or.inr h
    · rcases List.mem_cons.mp h with h | h
      · exact Or.inr (List.mem_cons.mpr (Or.inl h))
      · rcases ih h with h | h
        · exact Or.inl h
        · exact Or.inr (List.mem_cons.mpr (Or.inr h))

theorem mem_sortDescByScore (r : SearchResult) :
    ∀ l : List SearchResult, r ∈ sortDescByScore l → r ∈ l := by
  intro l
  induction l with
  | nil => intro h; simp [sortDescByScore] at h
  | cons x xs ih =>
    intro h
    rcases mem_insertDescByScore x r (sortDescByScore xs) h with h | h
    · exact List.mem_cons.mpr (Or.inl h)
    · exact List.mem_cons.mpr (Or.inr (ih h))

/-- Model of `kgStep` either returns its accumulator or appends exactly one new result
(whose shape we can name). -/
theorem kgStep_shape (mems : AList MemRec) (q : String) (res : List SearchResult)
    (key : String) :
    kgStep mems q res key = res ∨
    ∃ memId, kgStep mems q res key =
      res ++ [{ id := memId, score := Frac.zero, layer := kgLayerOf mems memId,
                docRefs := none, explain := some Explain.kg }] := by
  by_cases hc : (strEnds key (kgNeedle q) || strEnds (lowerStr key) (lowerStr (kgNeedle q))) = true
  · cases h1 : splitOnceArrow key with
    | none =>
      simp only [kgStep, if_pos hc, h1]
      exact Or.inl trivial
    | some pr =>
      obtain ⟨src, rest⟩ := pr
      cases h2 : stripPre src "Memory::" with
      | none =>
        simp only [kgStep, if_pos hc, h1, h2]
        exact Or.inl trivial
      | some memId =>
        by_cases h3 : (res.any (fun r => r.id == memId)) = true
        · simp only [kgStep, if_pos hc, h1, h2, if_pos h3]
          exact Or.inl trivial
        · simp only [kgStep, if_pos hc, h1, h2, if_neg h3]
          exact Or.inr ⟨memId, rfl⟩
  · simp only [kgStep, if_neg hc]
    exact Or.inl trivial

theorem kgStep_cases (mems : AList MemRec) (q : String) (res : List SearchResult)
    (key : String) (r : SearchResult) (hr : r ∈ kgStep mems q res key) :
    r ∈ res ∨ r.score = Frac.zero := by
  rcases kgStep_shape mems q res key with h | ⟨memId, h⟩
  · rw [h] at hr; exact Or.inl hr
  · rw [h] at hr
    rcases List.mem_append.mp hr with h' | h'
    · exact Or.inl h'
    · simp only [List.mem_singleton] at h'
      subst h'
      exact Or.inr rfl

theorem kgStep_len (mems : AList MemRec) (q : String) (res : List SearchResult)
    (key : String) : (kgStep mems q res key).length ≤ res.length + 1 := by
  rcases kgStep_shape mems q res key with h | ⟨memId, h⟩ <;> rw [h] <;> simp

theorem kgStep_extends (mems : AList MemRec) (q : String) (res : List SearchResult)
    (key : String) : ∃ t, kgStep mems q res key = res ++ t := by
  rcases kgStep_shape mems q res key with h | ⟨memId, h⟩
  · exact ⟨[], by rw [h, List.append_nil]⟩
  · exact ⟨_, h⟩

theorem annStep_cases (mems : AList MemRec) (res : List SearchResult)
    (hit : String × Frac) (r : SearchResult) (hr : r ∈ annStep mems res hit) :
    r ∈ res ∨ r.score = Frac.zero := by
  unfold annStep at hr
  split at hr
  · exact Or.inl hr
  · rcases List.mem_append.mp hr with h | h
    · exact Or.inl h
    · simp only [List.mem_singleton] at h
      subst h
      exact Or.inr rfl

theorem annStep_len (mems : AList MemRec) (res : List SearchResult)
    (hit : String × Frac) : (annStep mems res hit).length ≤ res.length + 1 := by
  unfold annStep
  split
  · simp
  · simp

theorem annStep_extends (mems : AList MemRec) (res : List SearchResult)
    (hit : String × Frac) : ∃ t, annStep mems res hit = res ++ t := by
  unfold annStep
  split
  · exact ⟨[], by simp⟩
  · exact ⟨_, rfl⟩

theorem kgPhase_len (mems : AList MemRec) (edgeKeys : List String) (q : String)
    (acc : List SearchResult) :
    (kgPhase mems edgeKeys q acc).length ≤ acc.length + edgeKeys.length := by
  unfold kgPhase
  split
  · omega
  · exact foldl_length_le (kgStep mems q) (fun a b => kgStep_len mems q a b) edgeKeys acc

theorem kgPhase_extends (mems : AList MemRec) (edgeKeys : List String) (q : String)
    (acc : List SearchResult) : ∃ t, kgPhase mems edgeKeys q acc = acc ++ t := by
  unfold kgPhase
  split
  · exact ⟨[], (List.append_nil acc).symm ▸ rfl⟩
  · exact foldl_extends (kgStep mems q) (fun a b => kgStep_extends mems q a b) edgeKeys acc

theorem annPhase_len (mems : AList MemRec) (annHits : List (String × Frac)) (q : String)
    (acc : List SearchResult) :
    (annPhase mems annHits q acc).length ≤ acc.length + annHits.length := by
  unfold annPhase
  split
  · omega
  · exact foldl_length_le (annStep mems) (fun a b => annStep_len mems a b) annHits acc

theorem annPhase_extends (mems : AList MemRec) (annHits : List (String × Frac)) (q : String)
    (acc : List SearchResult) : ∃ t, annPhase mems annHits q acc = acc ++ t := by
  unfold annPhase
  split
  · exact ⟨[], (List.append_nil acc).symm ▸ rfl⟩
  · exact foldl_extends (annStep mems) (fun a b => annStep_extends mems a b) annHits acc

theorem memScanHits_zero (mems : AList MemRec) (q : String) (tfrom tto : Option Int)
    (r : SearchResult) (hr : r ∈ memScanHits mems q tfrom tto) : r.score = Frac.zero := by
  unfold memScanHits at hr
  obtain ⟨p, _, hp⟩ := List.mem_filterMap.mp hr
  split at hp
  · obtain rfl := Option.some.inj hp
    rfl
  · cases hp

theorem docIndexHits_zero (textIdx : AList String) (q : String)
    (r : SearchResult) (hr : r ∈ docIndexHits textIdx q) : r.score = Frac.zero := by
  unfold docIndexHits at hr
  obtain ⟨p, _, hp⟩ := List.mem_filterMap.mp hr
  split at hp
  · obtain rfl := Option.some.inj hp
    rfl
  · cases hp

theorem fusionMiss_scores_zero (mems : AList MemRec) (textIdx : AList String)
    (edgeKeys : List String) (annHits : List (String × Frac))
    (q : String) (limit : Nat) (tfrom tto : Option Int) :
    ∀ r ∈ fusionMissResults mems textIdx edgeKeys annHits q limit tfrom tto,
      r.score = Frac.zero := by
  have htrunc : ∀ r ∈ (sortDescByScore
      (memScanHits mems q tfrom tto ++ docIndexHits textIdx q)).take limit,
      r.score = Frac.zero := by
    intro r hr
    have hs := mem_sortDescByScore r _ (List.take_subset _ _ hr)
    rcases List.mem_append.mp hs with h | h
    · exact memScanHits_zero mems q tfrom tto r h
    · exact docIndexHits_zero textIdx q r h
  have hkg : ∀ r ∈ kgPhase mems edgeKeys q ((sortDescByScore
      (memScanHits mems q tfrom tto ++ docIndexHits textIdx q)).take limit),
      r.score = Frac.zero := by
    unfold kgPhase
    split
    · exact htrunc
    · exact foldl_preserve (fun r => r.score = Frac.zero) (kgStep mems q)
        (fun acc a r hr => kgStep_cases mems q acc a r hr) edgeKeys _ htrunc
  intro r hr
  unfold fusionMissResults at hr
  unfold annPhase at hr
  split at hr
  · exact hkg r hr
  · exact foldl_preserve (fun r => r.score = Frac.zero) (annStep mems)
      (fun acc a r h => annStep_cases mems acc a r h) annHits _ hkg r hr

/-- C3, counterexample.  With `limit = 1`, one matching memory, and one
matching KG edge for a different memory, the cache-miss response of
`search_fusion` holds two results: the truncation to `limit` happens before
the KG and vector candidates are appended, so the final list exceeds `limit`,
refuting the claim that the returned list (after candidates from all sources
are gathered) has at most `limit` entries. -/
theorem c3_counterexample :
    ¬ ((searchFusion c3Env [] {} (some "apple") (some 1) none none 50 7).resp.results.length ≤ 1) := by
  decide

/-- C3, amended: in the cache-miss response, every result's score is the
literal 0, so the list is (trivially) sorted descending by score with ties in
insertion order; but only the text-phase candidates (memory scan and doc text
index) are sorted and truncated to `limit` — the KG and vector-ANN candidates
are appended afterwards without re-sorting or re-truncation, so the truncated
text phase is a prefix of the output and the total length is only bounded by
`limit` plus the number of KG edges plus the number of ANN hits. -/
theorem c3_amended (mems : AList MemRec) (textIdx : AList String)
    (edgeKeys : List String) (annHits : List (String × Frac))
    (q : String) (limit : Nat) (tfrom tto : Option Int) :
    ((fusionMissResults mems textIdx edgeKeys annHits q limit tfrom tto).all
      (fun r => r.score == Frac.zero)) = true ∧
    List.Pairwise (fun a b : SearchResult => Frac.ble b.score a.score = true)
      (fusionMissResults mems textIdx edgeKeys annHits q limit tfrom tto) ∧
    (fusionMissResults mems textIdx edgeKeys annHits q limit tfrom tto).length ≤
      limit + edgeKeys.length + annHits.length ∧
    List.IsPrefix
      ((sortDescByScore (memScanHits mems q tfrom tto ++ docIndexHits textIdx q)).take limit)
      (fusionMissResults mems textIdx edgeKeys annHits q limit tfrom tto) := by
  have hz := fusionMiss_scores_zero mems textIdx edgeKeys annHits q limit tfrom tto
  refine ⟨?_, ?_, ?_, ?_⟩
  · rw [List.all_eq_true]
    intro r hr
    exact beq_iff_eq.mpr (hz r hr)
  · refine List.pairwise_of_forall_mem_list ?_
    intro a ha b hb
    rw [hz a ha, hz b hb]
    decide
  · have htr : ((sortDescByScore
        (memScanHits mems q tfrom tto ++ docIndexHits textIdx q)).take limit).length ≤ limit := by
      rw [List.length_take]
      omega
    have hkg := kgPhase_len mems edgeKeys q
      ((sortDescByScore (memScanHits mems q tfrom tto ++ docIndexHits textIdx q)).take limit)
    have hann := annPhase_len mems annHits q (kgPhase mems edgeKeys q
      ((sortDescByScore (memScanHits mems q tfrom tto ++ docIndexHits textIdx q)).take limit))
    have heq : fusionMissResults mems textIdx edgeKeys annHits q limit tfrom tto =
        annPhase mems annHits q (kgPhase mems edgeKeys q
          ((sortDescByScore (memScanHits mems q tfrom tto ++ docIndexHits textIdx q)).take limit)) :=
      rfl
    rw [heq]
    omega
  · obtain ⟨t1, ht1⟩ := kgPhase_extends mems edgeKeys q
      ((sortDescByScore (memScanHits mems q tfrom tto ++ docIndexHits textIdx q)).take limit)
    obtain ⟨t2, ht2⟩ := annPhase_extends mems annHits q (kgPhase mems edgeKeys q
      ((sortDescByScore (memScanHits mems q tfrom tto ++ docIndexHits textIdx q)).take limit))
    have heq : fusionMissResults mems textIdx edgeKeys annHits q limit tfrom tto =
        annPhase mems annHits q (kgPhase mems edgeKeys q
          ((sortDescByScore (memScanHits mems q tfrom tto ++ docIndexHits textIdx q)).take limit)) :=
      rfl
    refine ⟨t1 ++ t2, ?_⟩
    rw [heq, ht2, ht1, List.append_assoc]

/-! ### Claims C4 and C10 -/

theorem alGet_alPut_same {α : Type} (t : AList α) (k : String) (v : α) :
    alGet (alPut t k v) k = some v := by
  induction t with
  | nil => simp [alPut, alGet, List.find?]
  | cons p rest ih =>
    obtain ⟨k', v'⟩ := p
    by_cases h : k' == k
    · simp [alPut, alGet, List.find?, h]
    · simp only [alPut, h, Bool.false_eq_true, if_false]
      simpa [alGet, List.find?, h] using ih

theorem metricsWindow_cacheHits (m : Metrics) (now : Int) (took : Nat) :
    (metricsWindow m now took).cacheHits = m.cacheHits := by
  simp only [metricsWindow]
  split <;> rfl

/-- Equation for the cache-miss branch of `search_fusion`. -/
theorem searchFusion_miss_eq (env : FusionEnv) (cache : FusionCache) (m : Metrics)
    (rawQ : Option String) (rawLimit : Option Nat) (tfrom tto : Option Int)
    (now : Int) (took : Nat)
    (h : alGet cache (fusionCacheKey (lowerStr (rawQ.getD "")) (rawLimit.getD 10)) = none) :
    searchFusion env cache m rawQ rawLimit tfrom tto now took =
      { resp := { results := fusionMissResults env.mems env.textIdx env.edgeKeys env.annHits
                    (lowerStr (rawQ.getD "")) (rawLimit.getD 10) tfrom tto,
                  tookMs := some took },
        cache := alPut cache (fusionCacheKey (lowerStr (rawQ.getD "")) (rawLimit.getD 10))
          (now, fusionMissResults env.mems env.textIdx env.edgeKeys env.annHits
            (lowerStr (rawQ.getD "")) (rawLimit.getD 10) tfrom tto),
        metrics := missMetrics m now took } := by
  simp only [searchFusion, h]

/-- Equation for the cache-hit branch of `search_fusion`. -/
theorem searchFusion_hit_eq (env : FusionEnv) (cache : FusionCache) (m : Metrics)
    (rawQ : Option String) (rawLimit : Option Nat) (tfrom tto : Option Int)
    (now : Int) (took : Nat) (ts : Int) (items : List SearchResult)
    (h : alGet cache (fusionCacheKey (lowerStr (rawQ.getD "")) (rawLimit.getD 10)) =
      some (ts, items))
    (hf : now - ts ≤ env.ttl) :
    searchFusion env cache m rawQ rawLimit tfrom tto now took =
      { resp := { results := items.take (rawLimit.getD 10), tookMs := some 0 },
        cache := cache, metrics := hitMetrics m now } := by
  simp only [searchFusion, h]
  rw [if_pos hf]

/-- C4: a fusion query that misses the cache, repeated with the same `q` and
`limit` within the TTL, is answered from the cache: `tookMs = 0`, the results
are the cached results of the first call truncated to `limit` (same ids in
the same order), and `cache_hits` goes up by exactly one. -/
theorem c4_cache_hit (env : FusionEnv) (cache : FusionCache) (m : Metrics)
    (rawQ : Option String) (rawLimit : Option Nat)
    (f1 t1 f2 t2 : Option Int) (now1 now2 : Int) (took1 took2 : Nat)
    (hmiss : alGet cache (fusionCacheKey (lowerStr (rawQ.getD "")) (rawLimit.getD 10)) = none)
    (hfresh : now2 - now1 ≤ env.ttl) :
    (searchFusion env (searchFusion env cache m rawQ rawLimit f1 t1 now1 took1).cache
        (searchFusion env cache m rawQ rawLimit f1 t1 now1 took1).metrics
        rawQ rawLimit f2 t2 now2 took2).resp.tookMs = some 0 ∧
    (searchFusion env (searchFusion env cache m rawQ rawLimit f1 t1 now1 took1).cache
        (searchFusion env cache m rawQ rawLimit f1 t1 now1 took1).metrics
        rawQ rawLimit f2 t2 now2 took2).resp.results =
      (searchFusion env cache m rawQ rawLimit f1 t1 now1 took1).resp.results.take
        (rawLimit.getD 10) ∧
    (searchFusion env (searchFusion env cache m rawQ rawLimit f1 t1 now1 took1).cache
        (searchFusion env cache m rawQ rawLimit f1 t1 now1 took1).metrics
        rawQ rawLimit f2 t2 now2 took2).metrics.cacheHits =
      (searchFusion env cache m rawQ rawLimit f1 t1 now1 took1).metrics.cacheHits + 1 := by
  have e1 := searchFusion_miss_eq env cache m rawQ rawLimit f1 t1 now1 took1 hmiss
  have hget : alGet (searchFusion env cache m rawQ rawLimit f1 t1 now1 took1).cache
      (fusionCacheKey (lowerStr (rawQ.getD "")) (rawLimit.getD 10)) =
      some (now1, fusionMissResults env.mems env.textIdx env.edgeKeys env.annHits
        (lowerStr (rawQ.getD "")) (rawLimit.getD 10) f1 t1) := by
    rw [e1]
    exact alGet_alPut_same cache _ _
  have e2 := searchFusion_hit_eq env
    (searchFusion env cache m rawQ rawLimit f1 t1 now1 took1).cache
    (searchFusion env cache m rawQ rawLimit f1 t1 now1 took1).metrics
    rawQ rawLimit f2 t2 now2 took2 now1 _ hget hfresh
  refine ⟨by rw [e2], ?_, ?_⟩
  · rw [e2, e1]
  · rw [e2, e1]
    simp only [hitMetrics, missMetrics, metricsWindow_cacheHits]

/-- Witness for `c4_cache_hit` at a concrete input. -/
theorem c4_cache_hit_witness :
    (searchFusion c3Env (searchFusion c3Env [] {} (some "apple") (some 1) none none 50 7).cache
        (searchFusion c3Env [] {} (some "apple") (some 1) none none 50 7).metrics
        (some "apple") (some 1) none none 52 9).resp.tookMs = some 0 ∧
    (searchFusion c3Env (searchFusion c3Env [] {} (some "apple") (some 1) none none 50 7).cache
        (searchFusion c3Env [] {} (some "apple") (some 1) none none 50 7).metrics
        (some "apple") (some 1) none none 52 9).resp.results =
      (searchFusion c3Env [] {} (some "apple") (some 1) none none 50 7).resp.results.take 1 ∧
    (searchFusion c3Env (searchFusion c3Env [] {} (some "apple") (some 1) none none 50 7).cache
        (searchFusion c3Env [] {} (some "apple") (some 1) none none 50 7).metrics
        (some "apple") (some 1) none none 52 9).metrics.cacheHits =
      (searchFusion c3Env [] {} (some "apple") (some 1) none none 50 7).metrics.cacheHits + 1 :=
  c4_cache_hit c3Env [] {} (some "apple") (some 1) none none none none 50 52 7 9
    (by decide) (by decide)

/-- C10: the fusion cache key is built only from the lowercased `q` and
`limit`, and the cache-hit branch never consults the `from`/`to` parameters:
while an entry is fresh, two queries with the same `q` and `limit` but
arbitrary (different) time windows get the identical cached response,
`tookMs = 0` and the cached results truncated to `limit`. -/
theorem c10_cache_ignores_time_window (env : FusionEnv) (cache : FusionCache)
    (m : Metrics) (rawQ : Option String) (rawLimit : Option Nat)
    (f1 t1 f2 t2 : Option Int) (now : Int) (took1 took2 : Nat)
    (ts : Int) (items : List SearchResult)
    (hget : alGet cache (fusionCacheKey (lowerStr (rawQ.getD "")) (rawLimit.getD 10)) =
      some (ts, items))
    (hfresh : now - ts ≤ env.ttl) :
    (searchFusion env cache m rawQ rawLimit f1 t1 now took1).resp =
      (searchFusion env cache m rawQ rawLimit f2 t2 now took2).resp ∧
    (searchFusion env cache m rawQ rawLimit f1 t1 now took1).resp.results =
      items.take (rawLimit.getD 10) ∧
    (searchFusion env cache m rawQ rawLimit f1 t1 now took1).resp.tookMs = some 0 := by
  have e1 := searchFusion_hit_eq env cache m rawQ rawLimit f1 t1 now took1 ts items hget hfresh
  have e2 := searchFusion_hit_eq env cache m rawQ rawLimit f2 t2 now took2 ts items hget hfresh
  exact ⟨by rw [e1, e2], by rw [e1], by rw [e1]⟩

/-- Witness for `c10_cache_ignores_time_window` at a concrete input. -/
theorem c10_witness :
    (searchFusion {} [(fusionCacheKey "apple" 2, (10, []))] {} (some "apple") (some 2)
        (some 1) (some 2) 100 7).resp =
      (searchFusion {} [(fusionCacheKey "apple" 2, (10, []))] {} (some "apple") (some 2)
        (some 3) (some 4) 100 9).resp ∧
    (searchFusion {} [(fusionCacheKey "apple" 2, (10, []))] {} (some "apple") (some 2)
        (some 1) (some 2) 100 7).resp.results = List.take 2 [] ∧
    (searchFusion {} [(fusionCacheKey "apple" 2, (10, []))] {} (some "apple") (some 2)
        (some 1) (some 2) 100 7).resp.tookMs = some 0 :=
  c10_cache_ignores_time_window {} [(fusionCacheKey "apple" 2, (10, []))] {}
    (some "apple") (some 2) (some 1) (some 2) (some 3) (some 4) 100 7 9 10 []
    (by decide) (by decide)

/-! ### Association-list lookup lemmas for the cascades -/

theorem alGet_eq_none_of {α : Type} (t : AList α) (k : String)
    (h : ∀ q ∈ t, (q.1 == k) = false) : alGet t k = none := by
  unfold alGet
  rw [List.find?_eq_none.mpr]
  · rfl
  · intro x hx
    simp [h x hx]

theorem alGet_filter_none {α : Type} (t : AList α) (p : String × α → Bool) (k : String)
    (hp : ∀ v, p (k, v) = false) : alGet (t.filter p) k = none := by
  apply alGet_eq_none_of
  intro q hq
  obtain ⟨k1, v1⟩ := q
  have hqt := List.mem_filter.mp hq
  by_cases hk : k1 = k
  · subst hk
    rw [hp v1] at hqt
    exact absurd hqt.2 (by simp)
  · exact beq_eq_false_iff_ne.mpr hk

theorem alGet_alRemove {α : Type} (t : AList α) (k : String) :
    alGet (alRemove t k) k = none :=
  alGet_filter_none t _ k (fun _ => by simp)

theorem alRemoveByPre_all {α : Type} (t : AList α) (pre : String) :
    ((alRemoveByPre t pre).all (fun p => !(strStarts p.1 pre))) = true := by
  rw [List.all_eq_true]
  intro p hp
  exact (List.mem_filter.mp hp).2

/-! ### Claim C6 -/

/-- C6: after a successful `memory_delete(id)`, the memory record, its
embedding, its `mem:{id}` text index entry, every `doc_refs` key with prefix
`mem::{id}::`, and every `kg_edges` key with prefix `Memory::{id}->` are
absent. -/
theorem c6_delete_cascade (s : ServerState) (id : String) (backup : Option Bool) (now : Int)
    (_hok : (memoryDelete s id backup now).1 = .ok ⟨true, true⟩) :
    alGet (memoryDelete s id backup now).2.memories id = none ∧
    alGet (memoryDelete s id backup now).2.memEmbeddings id = none ∧
    alGet (memoryDelete s id backup now).2.textIndex ("mem:" ++ id) = none ∧
    ((memoryDelete s id backup now).2.docRefs.all
      (fun p => !(strStarts p.1 ("mem::" ++ id ++ "::")))) = true ∧
    ((memoryDelete s id backup now).2.kgEdges.all
      (fun p => !(strStarts p.1 ("Memory::" ++ id ++ "->")))) = true := by
  have hsnd : (memoryDelete s id backup now).2 =
      { memoryDeletePre s id backup now with
        memories := alRemove (memoryDeletePre s id backup now).memories id } := by
    simp only [memoryDelete]
    split <;> rfl
  rw [hsnd]
  exact ⟨alGet_alRemove _ _, alGet_alRemove _ _, alGet_alRemove _ _,
    alRemoveByPre_all _ _, alRemoveByPre_all _ _⟩

/-- Witness for `c6_delete_cascade` at a concrete input. -/
theorem c6_delete_cascade_witness :
    alGet (memoryDelete c6wState "m" none 9).2.memories "m" = none ∧
    alGet (memoryDelete c6wState "m" none 9).2.memEmbeddings "m" = none ∧
    alGet (memoryDelete c6wState "m" none 9).2.textIndex ("mem:" ++ "m") = none ∧
    ((memoryDelete c6wState "m" none 9).2.docRefs.all
      (fun p => !(strStarts p.1 ("mem::" ++ "m" ++ "::")))) = true ∧
    ((memoryDelete c6wState "m" none 9).2.kgEdges.all
      (fun p => !(strStarts p.1 ("Memory::" ++ "m" ++ "->")))) = true :=
  c6_delete_cascade c6wState "m" none 9 (by decide)

/-! ### Claim C8 -/

/-- C8: `memory_add` validates the trimmed content before any write: an empty
or whitespace-only content yields HTTP 400 `INVALID_INPUT` and the state is
returned unchanged — no memory record, KG node or edge, text-index entry,
`doc_refs` entry, or embedding is written. -/
theorem c8_empty_content (s : ServerState) (content : String) (metadata : Option String)
    (layerHint sessionId episodeId : Option String) (references : Option (List RefInput))
    (freshId : String) (now : Int)
    (hempty : (trimStr content).isEmpty = true) :
    memoryAdd s content metadata layerHint sessionId episodeId references freshId now =
      (.error ⟨400, "INVALID_INPUT"⟩, s) := by
  simp [memoryAdd, hempty]

/-- Witness for `c8_empty_content` at a concrete input (whitespace-only). -/
theorem c8_empty_content_witness :
    memoryAdd {} "  " none none none none none "m1" 7 =
      (.error ⟨400, "INVALID_INPUT"⟩, ({} : ServerState)) :=
  c8_empty_content {} "  " none none none none none "m1" 7 (by decide)

/-! ### State-projection invariance lemmas for the first-ingest pipeline -/

theorem foldl_pres {σ α β : Type} (proj : σ → β) (f : σ → α → σ)
    (hf : ∀ st a, proj (f st a) = proj st) :
    ∀ (l : List α) (st : σ), proj (l.foldl f st) = proj st := by
  intro l
  induction l with
  | nil => intro st; rfl
  | cons a as ih => intro st; rw [List.foldl_cons, ih, hf]

@[simp] theorem ensureNode_docs (s : ServerState) (k : String) (n : KgNode) :
    (ensureNode s k n).docs = s.docs := by
  unfold ensureNode; split <;> rfl

@[simp] theorem ensureNode_embeddings (s : ServerState) (k : String) (n : KgNode) :
    (ensureNode s k n).embeddings = s.embeddings := by
  unfold ensureNode; split <;> rfl

@[simp] theorem ensureEntityNode_docs (s : ServerState) (e : String) (now : Int) :
    (ensureEntityNode s e now).docs = s.docs := ensureNode_docs _ _ _

@[simp] theorem ensureEntityNode_embeddings (s : ServerState) (e : String) (now : Int) :
    (ensureEntityNode s e now).embeddings = s.embeddings := ensureNode_embeddings _ _ _

@[simp] theorem ensureDocumentNode_docs (s : ServerState) (d : String) (now : Int) :
    (ensureDocumentNode s d now).docs = s.docs := ensureNode_docs _ _ _

@[simp] theorem ensureDocumentNode_embeddings (s : ServerState) (d : String) (now : Int) :
    (ensureDocumentNode s d now).embeddings = s.embeddings := ensureNode_embeddings _ _ _

@[simp] theorem linkEntities_docs (s : ServerState) (d : String) (es : List String) :
    (linkEntities s d es).docs = s.docs := by
  unfold linkEntities
  apply foldl_pres
  intro st e
  rfl

@[simp] theorem linkEntities_embeddings (s : ServerState) (d : String) (es : List String) :
    (linkEntities s d es).embeddings = s.embeddings := by
  unfold linkEntities
  apply foldl_pres
  intro st e
  rfl

@[simp] theorem recordVectors_docs (s : ServerState) (d : String) (starts : List Nat)
    (dim : Nat) : (recordVectors s d starts dim).docs = s.docs := rfl

@[simp] theorem recordVectors_embeddings (s : ServerState) (d : String) (starts : List Nat)
    (dim : Nat) : (recordVectors s d starts dim).embeddings = s.embeddings := rfl

@[simp] theorem relateDocuments_docs (s : ServerState) (a b : String) (now : Int) :
    (relateDocumentsByEntities s a b now).docs = s.docs := by
  simp only [relateDocumentsByEntities]
  split
  · rfl
  · split
    · rfl
    · split <;> rfl

@[simp] theorem relateDocuments_embeddings (s : ServerState) (a b : String) (now : Int) :
    (relateDocumentsByEntities s a b now).embeddings = s.embeddings := by
  simp only [relateDocumentsByEntities]
  split
  · rfl
  · split
    · rfl
    · split <;> rfl

@[simp] theorem mentionsFold_docs (es : List String) (docId : String) (now : Int)
    (s : ServerState) :
    (es.foldl (fun st e => addEdge (ensureEntityNode st e now) e docId "MENTIONS" now) s).docs =
      s.docs :=
  foldl_pres ServerState.docs _ (fun st e => by simp [addEdge]) es s

@[simp] theorem mentionsFold_embeddings (es : List String) (docId : String) (now : Int)
    (s : ServerState) :
    (es.foldl (fun st e =>
      addEdge (ensureEntityNode st e now) e docId "MENTIONS" now) s).embeddings =
      s.embeddings :=
  foldl_pres ServerState.embeddings _ (fun st e => by simp [addEdge]) es s

@[simp] theorem relateFold_docs (l : List String) (docId : String) (now : Int)
    (s : ServerState) :
    (l.foldl (fun st otherId =>
      if otherId ≠ docId then relateDocumentsByEntities st docId otherId now else st) s).docs =
      s.docs :=
  foldl_pres ServerState.docs _ (fun st o => by split <;> simp) l s

@[simp] theorem relateFold_embeddings (l : List String) (docId : String) (now : Int)
    (s : ServerState) :
    (l.foldl (fun st otherId =>
      if otherId ≠ docId then relateDocumentsByEntities st docId otherId now
      else st) s).embeddings = s.embeddings :=
  foldl_pres ServerState.embeddings _ (fun st o => by split <;> simp) l s

@[simp] theorem missPathUpdate_docs (s : ServerState) (id hh p : String) (now : Int) :
    (missPathUpdate s id hh p now).docs = s.docs := rfl

@[simp] theorem missPathUpdate_embeddings (s : ServerState) (id hh p : String) (now : Int) :
    (missPathUpdate s id hh p now).embeddings = s.embeddings := rfl

theorem dedupPathUpdate_docs (s : ServerState) (id hh p : String) (now : Int) :
    (dedupPathUpdate s id hh p now).docs = s.docs := by
  simp only [dedupPathUpdate]
  split <;> rfl

/-! ### Structure of a successful first ingest -/

theorem docIngest_fields (s1 : ServerState) (id hh content : String) (path : Option String)
    (metadata : Option String) (cids : Nat → String) (now : Int)
    (r : StoreDocResponse) (s' : ServerState)
    (h : docIngest s1 id hh content path metadata cids now = .ok (r, s')) :
    r = ⟨id, hh, (chunkMarkdown content cids).length⟩ ∧
    s'.docs = s1.docs ∧
    s'.embeddings = ((chunkMarkdown content cids).zip
        (embedBatch (docStoreEmbedInputs content cids))).foldl
      (fun t p => alPut t (id ++ ":" ++ toString p.1.position.start) p.2) s1.embeddings := by
  cases path <;> cases metadata <;>
  · simp only [docIngest] at h
    split at h
    · exact absurd h (by simp)
    · injection h with h2
      injection h2 with hr hs
      refine ⟨hr.symm, ?_, ?_⟩
      · rw [← hs]
        simp only [relateFold_docs, mentionsFold_docs, ensureDocumentNode_docs,
          linkEntities_docs, recordVectors_docs, missPathUpdate_docs]
      · rw [← hs]
        simp only [relateFold_embeddings, mentionsFold_embeddings,
          ensureDocumentNode_embeddings, linkEntities_embeddings,
          recordVectors_embeddings, missPathUpdate_embeddings]

theorem documentStore_ok_fields (s0 : ServerState) (hashFn : String → String)
    (content : String) (path : Option String) (meta : Option String) (f : String)
    (cids : Nat → String) (now : Int) (r : StoreDocResponse) (s' : ServerState)
    (h : documentStore s0 hashFn content path meta f cids now = .ok (r, s')) :
    r.hash = hashFn content ∧ alGet s'.docs (hashFn content) = some r.id := by
  simp only [documentStore] at h
  split at h
  · rename_i eid heq
    injection h with h2
    injection h2 with hr hs
    constructor
    · rw [← hr]
    · rw [← hr, ← hs]
      cases path with
      | none => simpa using heq
      | some p =>
        simpa [dedupPathUpdate_docs] using heq
  · obtain ⟨hr, hdocs, _⟩ := docIngest_fields _ _ _ _ _ _ _ _ _ _ h
    constructor
    · rw [hr]
    · rw [hdocs, hr]
      exact alGet_alPut_same s0.docs _ _

/-! ### Claim C5 -/

/-- C5: re-storing identical content hits the content-hash dedup: the second
call returns the first call's id with `chunks = 0`, the `docs` tree is
unchanged, and (a path being supplied) `doc_path_latest[p]` and
`doc_versions[p:v]` are still repointed at that id. -/
theorem c5_dedup_second_store (s0 : ServerState) (hashFn : String → String)
    (content : String) (p1 : Option String) (m1 m2 : Option String) (f1 f2 : String)
    (c1 c2 : Nat → String) (now1 now2 : Int) (p : String)
    (r1 : StoreDocResponse) (s1 : ServerState)
    (h1 : documentStore s0 hashFn content p1 m1 f1 c1 now1 = .ok (r1, s1)) :
    documentStore s1 hashFn content (some p) m2 f2 c2 now2 =
      .ok (⟨r1.id, hashFn content, 0⟩, dedupPathUpdate s1 r1.id (hashFn content) p now2) ∧
    (dedupPathUpdate s1 r1.id (hashFn content) p now2).docs = s1.docs ∧
    alGet (dedupPathUpdate s1 r1.id (hashFn content) p now2).pathLatest p = some r1.id ∧
    alGet (dedupPathUpdate s1 r1.id (hashFn content) p now2).docVersions
      (p ++ ":" ++ toString (dedupVersion s1 r1.id p)) = some r1.id := by
  obtain ⟨hh, hdocs⟩ := documentStore_ok_fields _ _ _ _ _ _ _ _ _ _ h1
  refine ⟨?_, dedupPathUpdate_docs _ _ _ _ _, ?_, ?_⟩
  · simp only [documentStore, hdocs]
  · exact alGet_alPut_same _ _ _
  · exact alGet_alPut_same _ _ _

/-- Witness for `c5_dedup_second_store` at a concrete input. -/
theorem c5_dedup_second_store_witness :
    documentStore c5wState (fun _ => "H") "hello world" (some "a.md") none "doc2"
        (fun _ => "cid2") 6 =
      .ok (⟨c5wResp.id, (fun (_ : String) => "H") "hello world", 0⟩,
        dedupPathUpdate c5wState c5wResp.id ((fun (_ : String) => "H") "hello world")
          "a.md" 6) ∧
    (dedupPathUpdate c5wState c5wResp.id ((fun (_ : String) => "H") "hello world")
      "a.md" 6).docs = c5wState.docs ∧
    alGet (dedupPathUpdate c5wState c5wResp.id ((fun (_ : String) => "H") "hello world")
      "a.md" 6).pathLatest "a.md" = some c5wResp.id ∧
    alGet (dedupPathUpdate c5wState c5wResp.id ((fun (_ : String) => "H") "hello world")
      "a.md" 6).docVersions
      ("a.md" ++ ":" ++ toString (dedupVersion c5wState c5wResp.id "a.md")) =
      some c5wResp.id :=
  c5_dedup_second_store {} (fun _ => "H") "hello world" none none none "doc1" "doc2"
    (fun _ => "cid") (fun _ => "cid2") 5 6 "a.md" c5wResp c5wState (by decide)

/-- C7, counterexample.  For the one-chunk content `"hello"` the chunk text
slice is `"hello"`, but `document_store` passes `[""]` to the embedding
provider (`chunks.iter().map(|_| "")`), so embed is not called on the chunk
text slices. -/
theorem c7_counterexample :
    docStoreEmbedInputs "hello" (fun _ => "c") = [""] ∧
    chunkTextSlices "hello" (fun _ => "c") = some ["hello"] ∧
    chunkTextSlices "hello" (fun _ => "c") ≠
      some (docStoreEmbedInputs "hello" (fun _ => "c")) := by
  refine ⟨by decide, by decide, by decide⟩

theorem mapConst_replicate {α β : Type} (b : β) :
    ∀ l : List α, l.map (fun _ => b) = List.replicate l.length b := by
  intro l
  induction l with
  | nil => rfl
  | cons a as ih => simp [ih, List.replicate_succ]

theorem zipMapConst_foldl {α β σ : Type} (v : β) (g : σ → α → β → σ) :
    ∀ (l : List α) (init : σ),
      (l.zip (l.map (fun _ => v))).foldl (fun t p => g t p.1 p.2) init =
        l.foldl (fun t a => g t a v) init := by
  intro l
  induction l with
  | nil => intro init; rfl
  | cons a as ih =>
    intro init
    simp only [List.map_cons, List.zip_cons_cons, List.foldl_cons]
    exact ih _

/-- C7, amended: on a first ingest, the embedding provider is called on one
*empty placeholder string per chunk* (not the chunk text slices), and the
resulting vectors — one 384-dimensional zero vector per chunk — are stored
under `embeddings[docId:start]`. -/
theorem c7_amended (s0 : ServerState) (hashFn : String → String) (content : String)
    (path : Option String) (meta : Option String) (f : String) (cids : Nat → String)
    (now : Int) (r : StoreDocResponse) (s' : ServerState)
    (hm : alGet s0.docs (hashFn content) = none)
    (hok : documentStore s0 hashFn content path meta f cids now = .ok (r, s')) :
    docStoreEmbedInputs content cids =
      List.replicate (chunkMarkdown content cids).length "" ∧
    embedBatch (docStoreEmbedInputs content cids) =
      List.replicate (chunkMarkdown content cids).length zeroVec ∧
    r.id = f ∧
    s'.embeddings = (chunkMarkdown content cids).foldl
      (fun t ch => alPut t (f ++ ":" ++ toString ch.position.start) zeroVec) s0.embeddings := by
  have hok' : docIngest { s0 with docs := alPut s0.docs (hashFn content) f } f
      (hashFn content) content path meta cids now = .ok (r, s') := by
    simpa only [documentStore, hm] using hok
  obtain ⟨hr, hdocs, hemb⟩ := docIngest_fields _ _ _ _ _ _ _ _ _ _ hok'
  have hinputs : docStoreEmbedInputs content cids =
      List.replicate (chunkMarkdown content cids).length "" :=
    mapConst_replicate "" _
  refine ⟨hinputs, ?_, by rw [hr], ?_⟩
  · rw [hinputs]
    simp [embedBatch, List.map_replicate]
  · have hb : embedBatch (docStoreEmbedInputs content cids) =
        (chunkMarkdown content cids).map (fun _ => zeroVec) := by
      simp only [embedBatch, docStoreEmbedInputs, List.map_map]
      rfl
    have hinit : ({ s0 with docs := alPut s0.docs (hashFn content) f } : ServerState).embeddings
        = s0.embeddings := rfl
    rw [hemb, hb, hinit]
    exact zipMapConst_foldl zeroVec
      (fun (t : AList (List Frac)) (ch : ChunkHeader) (v : List Frac) =>
        alPut t (f ++ ":" ++ toString ch.position.start) v) _ _

/-- Witness for `c7_amended` at a concrete input. -/
theorem c7_amended_witness :
    docStoreEmbedInputs "hi" (fun _ => "c") =
      List.replicate (chunkMarkdown "hi" (fun _ => "c")).length "" ∧
    embedBatch (docStoreEmbedInputs "hi" (fun _ => "c")) =
      List.replicate (chunkMarkdown "hi" (fun _ => "c")).length zeroVec ∧
    c7wResp.id = "d1" ∧
    c7wState.embeddings = (chunkMarkdown "hi" (fun _ => "c")).foldl
      (fun t ch => alPut t ("d1" ++ ":" ++ toString ch.position.start) zeroVec)
      (ServerState.embeddings {}) :=
  c7_amended {} (fun _ => "K") "hi" none none "d1" (fun _ => "c") 3 c7wResp c7wState
    (by decide) (by decide)

theorem charBytes_a : charBytes 'a' = 1 := by decide

/-- Taking exactly `n + 1` bytes from `n` ASCII characters followed by the
two-byte `é` panics: the budget runs out one byte into `é`. -/
theorem takeBytes_ascii_eacute :
    ∀ n : Nat, takeBytes (List.replicate n 'a' ++ ['é']) (n + 1) = none := by
  intro n
  induction n with
  | zero => decide
  | succ k ih =>
    rw [List.replicate_succ, List.cons_append]
    simp only [takeBytes, charBytes_a]
    rw [if_pos (by omega)]
    rw [show k + 1 + 1 - 1 = k + 1 from by omega]
    rw [ih]
    rfl

theorem c9_takeBytes : takeBytes c9Data (1000 - 0) = none := takeBytes_ascii_eacute 999

theorem c9_byteSlice_none : byteSlice c9Content 0 1000 = none := by
  unfold byteSlice
  rw [if_pos (by omega)]
  rw [show dropBytes c9Content.data 0 = some c9Data from rfl]
  rw [Option.some_bind]
  rw [c9_takeBytes]
  rfl

theorem c9_sliceChunks_none :
    sliceChunks (chunkMarkdown c9Content (fun _ => "c")) c9Content = none := by
  rw [show chunkMarkdown c9Content (fun _ => "c") =
      [⟨"c", ⟨0, 1000⟩⟩, ⟨"c", ⟨1000, 1001⟩⟩] from by decide]
  simp only [sliceChunks, List.mapM_cons]
  rw [show min (1000 : Nat) (byteLen c9Content) = 1000 from by decide]
  rw [c9_byteSlice_none]
  rfl

/-- Model of `docIngest` hits the slicing panic whenever a chunk boundary is not a
character boundary, whatever the rest of the state. -/
theorem docIngest_error_of_slice (s1 : ServerState) (id hh content : String)
    (path : Option String) (metadata : Option String) (cids : Nat → String) (now : Int)
    (h : sliceChunks (chunkMarkdown content cids) content = none) :
    docIngest s1 id hh content path metadata cids now =
      .error "panic: byte index is not a char boundary" := by
  cases path <;> cases metadata <;>
  · simp only [docIngest, indexChunksSled, h, Option.map_none']

/-- C9: the chunk windows are raw byte offsets, and both chunk indexers slice
`full_text` at them; at `c9Content` the first window ends at byte 1000,
inside `é`, so the slice panics — `document_store` does not return a
response.  (The model returns `none`/`.error` exactly where Rust panics with
"byte index is not a char boundary".) -/
theorem c9_slicing_panics :
    byteLen c9Content = 1001 ∧
    (chunkMarkdown c9Content (fun _ => "c")).map
      (fun ch => (ch.position.start, ch.position.stop)) = [(0, 1000), (1000, 1001)] ∧
    indexChunksSled [] "d" (chunkMarkdown c9Content (fun _ => "c")) c9Content = none ∧
    documentStore {} (fun _ => "H") c9Content none none "d" (fun _ => "c") 0 =
      .error "panic: byte index is not a char boundary" := by
  refine ⟨by decide, by decide, ?_, ?_⟩
  · simp only [indexChunksSled, c9_sliceChunks_none]
    rfl
  · simp only [documentStore]
    rw [show alGet (ServerState.docs {}) ((fun (_ : String) => "H") c9Content) = none from rfl]
    exact docIngest_error_of_slice _ _ _ _ _ _ _ _ c9_sliceChunks_none

end MemorizedMCP
